import Mathlib

/-!
Verification of the arithmetic and instruction-dispatch core of the
snarkVM fragment: the mode lattice, the bit-vector integer gadget
(negate / add / subtract / multiply / divide / power and the bit/byte
views), the `neg` instruction dispatcher (`evaluate`, `count`,
`output_type`), and the `VirtualRecord::is_dummy` predicate.

The integer gadget implementations are absent from the fragment (only
their `int8` tests are present), so those definitions are modelled from
the specification; the `neg` dispatcher and `VirtualRecord` are
translated directly from `neg.rs` and `objects.rs`.
-/

/-- Mode of a value or wire: `{Constant < Public < Private}` (§3, §4.1). -/
inductive Mode
  | Constant
  | Public
  | Private
deriving DecidableEq, Repr

/-- Numeric rank realising the total order Constant < Public < Private. -/
def Mode.rank : Mode → Nat
  | .Constant => 0
  | .Public => 1
  | .Private => 2

/-- `join(a, b) = max(a, b)` under Constant < Public < Private (§4.1). -/
def Mode.join (a b : Mode) : Mode :=
  if a.rank ≤ b.rank then b else a

/-- A boolean wire in the constraint system: a mode tag plus its
boolean value (the value an assignment gives the wire). -/
structure Wire where
  mode : Mode
  val : Bool
deriving DecidableEq, Repr

/-- Every wire of the list is in Constant mode. -/
def allConstant (ws : List Wire) : Bool :=
  ws.all (fun w => w.mode = Mode.Constant)

/-- The values carried by a list of wires (little-endian bit order). -/
def wireVals (ws : List Wire) : List Bool :=
  ws.map Wire.val

/-- Join of all wire modes of the operand lists (§4.1 default rule). -/
def joinModes (ws : List Wire) : Mode :=
  ws.foldl (fun m w => m.join w.mode) Mode.Constant

/-- Unsigned value of a little-endian bit string. -/
def bitsToNat : List Bool → Nat
  | [] => 0
  | b :: bs => b.toNat + 2 * bitsToNat bs

/-- The sign bit (most significant bit) of a little-endian bit string:
set exactly when the unsigned value is at least half the range. -/
def signBit (bs : List Bool) : Bool :=
  decide (2 ^ bs.length ≤ 2 * bitsToNat bs)

/-- Two's-complement (signed) value of a little-endian bit string. -/
def bitsToZ (bs : List Bool) : Int :=
  (bitsToNat bs : Int) - (if signBit bs then (2 : Int) ^ bs.length else 0)

/-- The `n` low bits of a natural number, little-endian. -/
def natToBits : Nat → Nat → List Bool
  | 0, _ => []
  | n + 1, m => decide (m % 2 = 1) :: natToBits n (m / 2)

/-- The `n`-bit two's-complement encoding of an integer. -/
def intToBits (n : Nat) (x : Int) : List Bool :=
  natToBits n (x % ((2 : Int) ^ n)).toNat

/-- Representable range of an `n`-bit signed integer:
`[-2^(n-1), 2^(n-1) - 1]` (§4.2). -/
def inRange (n : Nat) (x : Int) : Prop :=
  -((2 : Int) ^ (n - 1)) ≤ x ∧ x ≤ (2 : Int) ^ (n - 1) - 1

instance (n : Nat) (x : Int) : Decidable (inRange n x) := by
  unfold inRange; infer_instance

/-- Ripple-carry construction from the least-significant wire upward
(§4.2 `add`): each step produces a sum bit and a carry bit; returns the
sum bits together with the final carry-out. -/
def rippleAdd : List Bool → List Bool → Bool → List Bool × Bool
  | [], _, c => ([], c)
  | _ :: _, [], c => ([], c)
  | a :: as, b :: bs, c =>
    let s := Bool.xor (Bool.xor a b) c
    let c2 := (a && b) || (c && Bool.xor a b)
    let rest := rippleAdd as bs c2
    (s :: rest.1, rest.2)

theorem bitsToNat_lt (bs : List Bool) : bitsToNat bs < 2 ^ bs.length := by
  induction bs with
  | nil => simp [bitsToNat]
  | cons b bs ih =>
    simp only [bitsToNat, List.length_cons, pow_succ]
    cases b <;> simp [Bool.toNat] <;> omega

theorem rippleAdd_length (as bs : List Bool) (c : Bool)
    (h : as.length = bs.length) :
    (rippleAdd as bs c).1.length = as.length := by
  induction as generalizing bs c with
  | nil => simp [rippleAdd]
  | cons a as ih =>
    cases bs with
    | nil => simp at h
    | cons b bs =>
      simp only [rippleAdd, List.length_cons]
      rw [ih bs _ (by simpa using h)]

/-- Ripple-carry adder correctness: sum bits plus weighted carry-out
reconstruct the full unsigned sum. -/
theorem rippleAdd_spec (as bs : List Bool) (c : Bool)
    (h : as.length = bs.length) :
    bitsToNat (rippleAdd as bs c).1 +
      2 ^ as.length * ((rippleAdd as bs c).2).toNat =
    bitsToNat as + bitsToNat bs + c.toNat := by
  induction as generalizing bs c with
  | nil =>
    cases bs with
    | nil => simp [rippleAdd, bitsToNat]
    | cons b bs => simp at h
  | cons a as ih =>
    cases bs with
    | nil => simp at h
    | cons b bs =>
      have h' : as.length = bs.length := by simpa using h
      have ihs := ih bs ((a && b) || (c && Bool.xor a b)) h'
      have hK : ∀ t : Nat, 2 ^ as.length * 2 * t = 2 * (2 ^ as.length * t) := by
        intro t; ring
      simp only [rippleAdd, bitsToNat, List.length_cons, pow_succ]
      cases a <;> cases b <;> cases c <;>
        simp [hK] at ihs ⊢ <;> omega

theorem natToBits_length (n m : Nat) : (natToBits n m).length = n := by
  induction n generalizing m with
  | zero => rfl
  | succ n ih => simp [natToBits, ih]

theorem bitsToNat_natToBits (n m : Nat) :
    bitsToNat (natToBits n m) = m % 2 ^ n := by
  induction n generalizing m with
  | zero => simp [natToBits, bitsToNat, Nat.mod_one]
  | succ n ih =>
    have hq := Nat.div_add_mod m 2
    have hs := Nat.div_add_mod (m / 2) (2 ^ n)
    have hlt : m / 2 % 2 ^ n < 2 ^ n := Nat.mod_lt _ (by positivity)
    have h1 : m = 2 ^ (n + 1) * (m / 2 / 2 ^ n) + (2 * (m / 2 % 2 ^ n) + m % 2) := by
      conv_lhs => rw [← hq, ← hs]
      ring
    have key : m % 2 ^ (n + 1) = 2 * (m / 2 % 2 ^ n) + m % 2 := by
      conv_lhs => rw [h1]
      rw [Nat.mul_add_mod]
      have hpow : (2 : Nat) ^ (n + 1) = 2 * 2 ^ n := by rw [pow_succ']
      exact Nat.mod_eq_of_lt (by omega)
    have h2 : (decide (m % 2 = 1)).toNat = m % 2 := by
      rcases Nat.mod_two_eq_zero_or_one m with h | h <;> simp [h]
    simp only [natToBits, bitsToNat, ih, h2, key]
    omega

theorem intToBits_length (n : Nat) (x : Int) : (intToBits n x).length = n :=
  natToBits_length _ _

theorem bitsToNat_intToBits (n : Nat) (x : Int) :
    bitsToNat (intToBits n x) = (x % (2 : Int) ^ n).toNat := by
  have hlt : x % (2 : Int) ^ n < 2 ^ n := Int.emod_lt_of_pos _ (by positivity)
  have hge : (0 : Int) ≤ x % (2 : Int) ^ n := Int.emod_nonneg _ (by positivity)
  rw [intToBits, bitsToNat_natToBits]
  apply Nat.mod_eq_of_lt
  have hcast : (((2 : Nat) ^ n : Nat) : Int) = (2 : Int) ^ n := by push_cast; ring
  omega

/-- Every bit string denotes a representable value of its own width. -/
theorem bitsToZ_inRange (bs : List Bool) : inRange bs.length (bitsToZ bs) := by
  have hlt := bitsToNat_lt bs
  have hone : 1 ≤ 2 ^ (bs.length - 1) := Nat.one_le_two_pow
  have hzpow : (((2 : Nat) ^ bs.length : Nat) : Int) = (2 : Int) ^ bs.length := by
    push_cast; ring
  have hzpow' : (((2 : Nat) ^ (bs.length - 1) : Nat) : Int) = (2 : Int) ^ (bs.length - 1) := by
    push_cast; ring
  rcases Nat.eq_zero_or_pos bs.length with h0 | hpos
  · have hb : bs = [] := List.eq_nil_of_length_eq_zero h0
    subst hb
    simp [inRange, bitsToZ, signBit, bitsToNat]
  · have hpow : (2 : Nat) ^ bs.length = 2 * 2 ^ (bs.length - 1) := by
      rw [← pow_succ']
      congr 1
      omega
    unfold inRange bitsToZ signBit
    constructor <;>
      · split <;> rename_i hs <;> simp only [decide_eq_true_eq] at hs <;> omega

theorem bitsToZ_intToBits (n : Nat) (x : Int) (hn : 1 ≤ n)
    (h : inRange n x) : bitsToZ (intToBits n x) = x := by
  obtain ⟨hlo, hhi⟩ := h
  have hpow : (2 : Int) ^ n = 2 * 2 ^ (n - 1) := by
    rw [← pow_succ']
    congr 1
    omega
  have hppos : (0 : Int) < 2 ^ (n - 1) := by positivity
  have hmod : x % (2 : Int) ^ n = if 0 ≤ x then x else x + 2 ^ n := by
    split
    · exact Int.emod_eq_of_lt (by assumption) (by omega)
    · rw [show x % (2 : Int) ^ n = (x + 2 ^ n * 1) % 2 ^ n by rw [Int.add_mul_emod_self_left]]
      rw [mul_one]
      exact Int.emod_eq_of_lt (by omega) (by omega)
  have hnat := bitsToNat_intToBits n x
  have hlen := intToBits_length n x
  have hnpow : (((2 : Nat) ^ n : Nat) : Int) = (2 : Int) ^ n := by push_cast; ring
  have hnpow' : (((2 : Nat) ^ (n - 1) : Nat) : Int) = (2 : Int) ^ (n - 1) := by
    push_cast; ring
  unfold bitsToZ signBit
  rw [hnat, hlen]
  simp only [decide_eq_true_eq]
  by_cases hx : 0 ≤ x
  · have hxval : (x % (2 : Int) ^ n) = x := by rw [hmod]; simp [hx]
    have hsign : ¬ (2 ^ n ≤ 2 * (x % (2 : Int) ^ n).toNat) := by
      rw [hxval]; omega
    rw [if_neg hsign, hxval]
    omega
  · have hxval : (x % (2 : Int) ^ n) = x + 2 ^ n := by rw [hmod]; simp [hx]
    have hsign : (2 ^ n ≤ 2 * (x % (2 : Int) ^ n).toNat) := by
      rw [hxval]; omega
    rw [if_pos hsign, hxval]
    omega

/-- Modelled from the spec: §4.2 `add` on the bit level (the gadget
implementation is absent from the fragment; only its tests are).
Ripple construction from the least-significant wire upward; overflow is
detected by comparing the sign of inputs and output; on overflow the
operation halts (`none`). -/
def addSignedBits (as bs : List Bool) : Option (List Bool) :=
  let s := (rippleAdd as bs false).1
  if signBit as = signBit bs ∧ signBit s ≠ signBit as then none else some s

theorem addSigned_core (as bs : List Bool) (hn : 1 ≤ as.length)
    (h : as.length = bs.length) :
    ((signBit as = signBit bs ∧ signBit (rippleAdd as bs false).1 ≠ signBit as) ↔
      ¬ inRange as.length (bitsToZ as + bitsToZ bs)) ∧
    (inRange as.length (bitsToZ as + bitsToZ bs) →
      bitsToZ (rippleAdd as bs false).1 = bitsToZ as + bitsToZ bs) := by
  have hlenS := rippleAdd_length as bs false h
  have hspec := rippleAdd_spec as bs false h
  have hA := bitsToNat_lt as
  have hB := bitsToNat_lt bs
  have hS := bitsToNat_lt (rippleAdd as bs false).1
  rw [← h] at hB
  rw [hlenS] at hS
  have hone : 1 ≤ 2 ^ (as.length - 1) := Nat.one_le_two_pow
  have hpow : (2 : Nat) ^ as.length = 2 * 2 ^ (as.length - 1) := by
    rw [← pow_succ']; congr 1; omega
  have hc1 : (((2 : Nat) ^ as.length : Nat) : Int) = (2 : Int) ^ as.length := by
    push_cast; ring
  have hc2 : (((2 : Nat) ^ (as.length - 1) : Nat) : Int) = (2 : Int) ^ (as.length - 1) := by
    push_cast; ring
  simp only [Bool.toNat_false, Nat.add_zero] at hspec
  unfold inRange bitsToZ
  rw [hlenS, ← h]
  cases hcout : (rippleAdd as bs false).2 <;>
    rw [hcout] at hspec <;>
    simp only [Bool.toNat_false, Bool.toNat_true] at hspec <;>
    cases hsa : signBit as <;> cases hsb : signBit bs <;>
    cases hss : signBit (rippleAdd as bs false).1 <;>
    simp only [signBit, decide_eq_true_eq, decide_eq_false_iff_not] at hsa hsb hss <;>
    rw [← h] at hsb <;> rw [hlenS] at hss <;>
    constructor <;> simp <;> omega

/-- `add(a,b)` halts iff the mathematical sum falls outside
`[MIN, MAX]`; otherwise it returns exactly that sum (§8). -/
theorem addSignedBits_spec (as bs : List Bool) (hn : 1 ≤ as.length)
    (h : as.length = bs.length) :
    (addSignedBits as bs = none ↔ ¬ inRange as.length (bitsToZ as + bitsToZ bs)) ∧
    (∀ s, addSignedBits as bs = some s →
      bitsToZ s = bitsToZ as + bitsToZ bs ∧ s.length = as.length) := by
  have core := addSigned_core as bs hn h
  have hlenS := rippleAdd_length as bs false h
  simp only [addSignedBits]
  constructor
  · by_cases hc : (signBit as = signBit bs ∧
        signBit (rippleAdd as bs false).1 ≠ signBit as)
    · rw [if_pos hc]
      simpa using core.1.mp hc
    · rw [if_neg hc]
      have hin : inRange as.length (bitsToZ as + bitsToZ bs) :=
        not_not.mp (mt core.1.mpr hc)
      simp [hin]
  · intro s hs
    by_cases hc : (signBit as = signBit bs ∧
        signBit (rippleAdd as bs false).1 ≠ signBit as)
    · rw [if_pos hc] at hs
      simp at hs
    · rw [if_neg hc] at hs
      have hin : inRange as.length (bitsToZ as + bitsToZ bs) :=
        not_not.mp (mt core.1.mpr hc)
      cases hs
      exact ⟨core.2 hin, hlenS⟩

theorem bitsToNat_complement (bs : List Bool) :
    bitsToNat (bs.map not) = 2 ^ bs.length - 1 - bitsToNat bs := by
  induction bs with
  | nil => simp [bitsToNat]
  | cons b bs ih =>
    have := bitsToNat_lt bs
    simp only [List.map_cons, bitsToNat, List.length_cons, pow_succ, ih]
    cases b <;> simp <;> omega

theorem bitsToZ_complement (bs : List Bool) (hn : 1 ≤ bs.length) :
    bitsToZ (bs.map not) = -(bitsToZ bs) - 1 := by
  have hA := bitsToNat_lt bs
  have hcomp := bitsToNat_complement bs
  have hone : 1 ≤ 2 ^ (bs.length - 1) := Nat.one_le_two_pow
  have hpow : (2 : Nat) ^ bs.length = 2 * 2 ^ (bs.length - 1) := by
    rw [← pow_succ']; congr 1; omega
  have hc1 : (((2 : Nat) ^ bs.length : Nat) : Int) = (2 : Int) ^ bs.length := by
    push_cast; ring
  have hlen : (bs.map not).length = bs.length := by simp
  unfold bitsToZ signBit
  rw [hlen, hcomp]
  simp only [decide_eq_true_eq]
  by_cases hs : 2 ^ bs.length ≤ 2 * bitsToNat bs
  · rw [if_pos hs, if_neg (by omega)]
    omega
  · rw [if_neg hs, if_pos (by omega)]
    omega

/-- The `n`-bit constant `1` used by two's-complement negation. -/
def oneBits (n : Nat) : List Bool := natToBits n 1

theorem bitsToZ_oneBits (n : Nat) (hn : 2 ≤ n) : bitsToZ (oneBits n) = 1 := by
  have hfour : 4 ≤ 2 ^ n := by
    calc (4 : Nat) = 2 ^ 2 := by norm_num
    _ ≤ 2 ^ n := Nat.pow_le_pow_right (by norm_num) hn
  unfold oneBits bitsToZ signBit
  rw [natToBits_length, bitsToNat_natToBits]
  rw [Nat.mod_eq_of_lt (by omega)]
  simp only [decide_eq_true_eq]
  rw [if_neg (by omega)]
  simp

/-- Modelled from the spec: §4.2 `negate` (implementation absent from
the fragment): bitwise complement then add 1 through the adder, so the
sole overflow (the minimum value) halts exactly like the addition of
two constants, matching the diagnostics asserted in `neg.rs` tests. -/
def negSignedBits (as : List Bool) : Option (List Bool) :=
  addSignedBits (as.map not) (oneBits as.length)

/-- `negate(MIN)` halts; `negate(x)` for `x ≠ MIN` succeeds and equals
`-x` (§8). -/
theorem negSignedBits_spec (as : List Bool) (hn : 2 ≤ as.length) :
    (negSignedBits as = none ↔ bitsToZ as = -((2 : Int) ^ (as.length - 1))) ∧
    (∀ r, negSignedBits as = some r →
      bitsToZ r = -(bitsToZ as) ∧ r.length = as.length) := by
  have hcl : (as.map not).length = as.length := by simp
  have h1 : (oneBits as.length).length = as.length := natToBits_length _ _
  have honeval := bitsToZ_oneBits as.length hn
  have hcompZ := bitsToZ_complement as (by omega)
  have spec := addSignedBits_spec (as.map not) (oneBits as.length)
    (by rw [hcl]; omega) (by rw [hcl, h1])
  rw [hcl, hcompZ, honeval] at spec
  have hsum : -(bitsToZ as) - 1 + 1 = -(bitsToZ as) := by ring
  rw [hsum] at spec
  have hr := bitsToZ_inRange as
  constructor
  · unfold negSignedBits
    rw [spec.1]
    unfold inRange at *
    omega
  · intro r hrr
    obtain ⟨hv, hl⟩ := spec.2 r hrr
    exact ⟨hv, hl⟩

/-- Modelled from the spec: §4.2 `subtract` is `add(a, negate(b))` and
inherits negate's halt when `b` is the minimum representable value. -/
def subSignedBits (as bs : List Bool) : Option (List Bool) :=
  match negSignedBits bs with
  | none => none
  | some nb => addSignedBits as nb

theorem subSignedBits_spec (as bs : List Bool) (hn : 2 ≤ as.length)
    (h : as.length = bs.length) :
    (subSignedBits as bs = none ↔
      (bitsToZ bs = -((2 : Int) ^ (as.length - 1)) ∨
        ¬ inRange as.length (bitsToZ as - bitsToZ bs))) ∧
    (∀ r, subSignedBits as bs = some r →
      bitsToZ r = bitsToZ as - bitsToZ bs ∧ r.length = as.length) := by
  have hnspec := negSignedBits_spec bs (by omega)
  rw [← h] at hnspec
  unfold subSignedBits
  cases hneg : negSignedBits bs with
  | none =>
    have hmin := hnspec.1.mp hneg
    constructor
    · simp [hmin]
    · intro r hrr
      simp at hrr
  | some nb =>
    have hnmin : ¬ (bitsToZ bs = -((2 : Int) ^ (as.length - 1))) := by
      intro hmin
      rw [hnspec.1.mpr hmin] at hneg
      simp at hneg
    obtain ⟨hnv, hnl⟩ := hnspec.2 nb hneg
    have haspec := addSignedBits_spec as nb (by omega) (by omega)
    rw [hnv] at haspec
    have hsub : bitsToZ as + -(bitsToZ bs) = bitsToZ as - bitsToZ bs := by ring
    rw [hsub] at haspec
    constructor
    · rw [haspec.1]
      tauto
    · exact haspec.2

/-- Modelled from the spec: §4.2 `multiply` via double-width
accumulation (the stated equivalent of shift-and-add over the bits of
`b`), then range-checked truncation back to N bits; halts if the
untruncated result is not representable in N bits. -/
def mulSignedBits (as bs : List Bool) : Option (List Bool) :=
  let p := bitsToZ as * bitsToZ bs
  if inRange as.length p then some (intToBits as.length p) else none

theorem mulSignedBits_spec (as bs : List Bool) (hn : 1 ≤ as.length) :
    (mulSignedBits as bs = none ↔ ¬ inRange as.length (bitsToZ as * bitsToZ bs)) ∧
    (∀ r, mulSignedBits as bs = some r →
      bitsToZ r = bitsToZ as * bitsToZ bs ∧ r.length = as.length) := by
  unfold mulSignedBits
  by_cases hp : inRange as.length (bitsToZ as * bitsToZ bs)
  · rw [if_pos hp]
    constructor
    · simp [hp]
    · intro r hrr
      cases hrr
      exact ⟨bitsToZ_intToBits _ _ hn hp, intToBits_length _ _⟩
  · rw [if_neg hp]
    constructor
    · simp [hp]
    · intro r hrr
      simp at hrr

/-- The truncated-toward-zero quotient of two representable values is
representable, except for the sole signed edge case MIN / −1. -/
theorem tdiv_inRange (n : Nat) (a b : Int) (hn : 1 ≤ n)
    (ha : inRange n a) (hb0 : b ≠ 0)
    (hmin : ¬(a = -((2 : Int) ^ (n - 1)) ∧ b = -1)) :
    inRange n (a.tdiv b) := by
  have hc2 : (((2 : Nat) ^ (n - 1) : Nat) : Int) = (2 : Int) ^ (n - 1) := by
    push_cast; ring
  have hone : 1 ≤ (2 : Nat) ^ (n - 1) := Nat.one_le_two_pow
  rcases eq_or_ne b 1 with hb | hb
  · rw [hb, Int.tdiv_one]
    exact ha
  rcases eq_or_ne b (-1) with hbm | hbm
  · rw [hbm, show ((-1 : Int)) = -(1 : Int) by norm_num, Int.tdiv_neg, Int.tdiv_one]
    unfold inRange at *
    omega
  · have habs : (a.tdiv b).natAbs = a.natAbs / b.natAbs := Int.natAbs_tdiv a b
    have hb2 : 2 ≤ b.natAbs := by omega
    have hmono : a.natAbs / b.natAbs ≤ a.natAbs / 2 :=
      Nat.div_le_div_left hb2 (by norm_num)
    have hA : a.natAbs ≤ 2 ^ (n - 1) := by
      unfold inRange at ha
      omega
    unfold inRange
    omega

/-- Modelled from the spec: §4.2 `divide` (implementation absent from
the fragment): truncating (toward-zero) integer division; halts if the
divisor is zero; halts on the sole signed edge case where the quotient
is not representable (minimum value divided by −1). -/
def divSignedBits (as bs : List Bool) : Option (List Bool) :=
  let a := bitsToZ as
  let b := bitsToZ bs
  if b = 0 then none
  else if a = -((2 : Int) ^ (as.length - 1)) ∧ b = -1 then none
  else some (intToBits as.length (a.tdiv b))

theorem divSignedBits_spec (as bs : List Bool) (hn : 1 ≤ as.length) :
    (divSignedBits as bs = none ↔
      (bitsToZ bs = 0 ∨
        (bitsToZ as = -((2 : Int) ^ (as.length - 1)) ∧ bitsToZ bs = -1))) ∧
    (∀ r, divSignedBits as bs = some r →
      bitsToZ r = (bitsToZ as).tdiv (bitsToZ bs) ∧ r.length = as.length) := by
  have ha : inRange as.length (bitsToZ as) := bitsToZ_inRange as
  unfold divSignedBits
  by_cases hb0 : bitsToZ bs = 0
  · rw [if_pos hb0]
    constructor
    · simp [hb0]
    · intro r hrr
      simp at hrr
  · rw [if_neg hb0]
    by_cases hmin : bitsToZ as = -((2 : Int) ^ (as.length - 1)) ∧ bitsToZ bs = -1
    · rw [if_pos hmin]
      constructor
      · simp [hmin]
      · intro r hrr
        simp at hrr
    · rw [if_neg hmin]
      have hq := tdiv_inRange as.length (bitsToZ as) (bitsToZ bs) hn ha hb0 hmin
      constructor
      · simp [hb0, hmin]
      · intro r hrr
        cases hrr
        exact ⟨bitsToZ_intToBits _ _ hn hq, intToBits_length _ _⟩

/-- An `n`-bit range-checked multiply on native values: the multiply
rule of §4.2 applied to one intermediate step. -/
def checkedMulInt (n : Nat) (x y : Int) : Option Int :=
  if inRange n (x * y) then some (x * y) else none

theorem checkedMulInt_some (n : Nat) (x y z : Int)
    (h : checkedMulInt n x y = some z) : z = x * y ∧ inRange n (x * y) := by
  unfold checkedMulInt at h
  split at h
  · cases h
    exact ⟨rfl, by assumption⟩
  · simp at h

/-- Square-and-multiply accumulator loop over the exponent bits, most
significant bit first; each intermediate multiply is range-checked. -/
def powGo (n : Nat) (a : Int) : Int → List Bool → Option Int
  | acc, [] => some acc
  | acc, b :: rest =>
    match checkedMulInt n acc acc with
    | none => none
    | some sq =>
      match (if b then checkedMulInt n sq a else some sq) with
      | none => none
      | some acc2 => powGo n a acc2 rest

theorem bitsToNat_append (xs : List Bool) (b : Bool) :
    bitsToNat (xs ++ [b]) = bitsToNat xs + b.toNat * 2 ^ xs.length := by
  induction xs with
  | nil => simp [bitsToNat]
  | cons x xs ih =>
    simp only [List.cons_append, bitsToNat, List.append_eq, ih, List.length_cons,
      pow_succ]
    ring

theorem powGo_spec (n : Nat) (a : Int) (bits : List Bool) : ∀ (acc r : Int),
    powGo n a acc bits = some r →
    r = acc ^ ((2 : Nat) ^ bits.length) * a ^ (bitsToNat bits.reverse) ∧
    (bits = [] → r = acc) ∧ (bits ≠ [] → inRange n r) := by
  induction bits with
  | nil =>
    intro acc r hp
    unfold powGo at hp
    cases hp
    simp [bitsToNat]
  | cons b rest ih =>
    intro acc r hp
    unfold powGo at hp
    cases hsq : checkedMulInt n acc acc with
    | none => rw [hsq] at hp; simp at hp
    | some sq =>
      rw [hsq] at hp
      obtain ⟨hsqv, hsqr⟩ := checkedMulInt_some n acc acc sq hsq
      cases b with
      | false =>
        simp only [if_neg (by simp : ¬ (false = true))] at hp
        obtain ⟨hv, hnil, hrange⟩ := ih sq r hp
        refine ⟨?_, by simp, ?_⟩
        · rw [hv, hsqv]
          rw [List.reverse_cons, bitsToNat_append, List.length_reverse,
            List.length_cons, pow_succ]
          simp only [Bool.toNat_false, Nat.zero_mul, Nat.add_zero]
          rw [pow_mul']
          ring
        · intro _
          cases hrest : rest with
          | nil =>
            subst hrest
            unfold powGo at hp
            cases hp
            rw [hsqv]
            exact hsqr
          | cons c cs =>
            subst hrest
            exact hrange (by simp)
      | true =>
        simp only [if_pos rfl] at hp
        cases hm : checkedMulInt n sq a with
        | none => rw [hm] at hp; simp at hp
        | some acc2 =>
          rw [hm] at hp
          obtain ⟨hmv, hmr⟩ := checkedMulInt_some n sq a acc2 hm
          obtain ⟨hv, hnil, hrange⟩ := ih acc2 r hp
          refine ⟨?_, by simp, ?_⟩
          · rw [hv, hmv, hsqv]
            rw [List.reverse_cons, bitsToNat_append, List.length_reverse,
              List.length_cons, pow_succ]
            simp only [Bool.toNat_true, Nat.one_mul]
            rw [pow_add, pow_mul']
            ring
          · intro _
            cases hrest : rest with
            | nil =>
              subst hrest
              unfold powGo at hp
              cases hp
              rw [hmv]
              exact hmr
            | cons c cs =>
              subst hrest
              exact hrange (by simp)

/-- Modelled from the spec: §4.2 `power` (implementation absent from
the fragment): square-and-multiply over the bits of the exponent;
halts if the exponent is negative (sign bit set) or if any intermediate
multiply overflows per the multiply rule. -/
def powSignedBits (as es : List Bool) : Option (List Bool) :=
  if signBit es then none
  else
    match powGo as.length (bitsToZ as) 1 es.reverse with
    | none => none
    | some r => some (intToBits as.length r)

theorem powSignedBits_spec (as es : List Bool) (hn : 1 ≤ as.length)
    (h : as.length = es.length) :
    (signBit es = true → powSignedBits as es = none) ∧
    (signBit es = false → bitsToZ es = (bitsToNat es : Int)) ∧
    (∀ r, powSignedBits as es = some r →
      bitsToZ r = (bitsToZ as) ^ (bitsToNat es) ∧ r.length = as.length) := by
  refine ⟨?_, ?_, ?_⟩
  · intro hs
    unfold powSignedBits
    rw [if_pos hs]
  · intro hs
    unfold bitsToZ
    rw [hs]
    simp
  · intro r hp
    unfold powSignedBits at hp
    by_cases hs : signBit es
    · rw [if_pos hs] at hp
      simp at hp
    · rw [if_neg hs] at hp
      cases hg : powGo as.length (bitsToZ as) 1 es.reverse with
      | none => rw [hg] at hp; simp at hp
      | some v =>
        rw [hg] at hp
        cases hp
        obtain ⟨hv, _, hrange⟩ := powGo_spec as.length (bitsToZ as) es.reverse 1 v hg
        have hne : es.reverse ≠ [] := by
          intro hnil
          have : es.length = 0 := by
            rw [← List.length_reverse, hnil]
            rfl
          omega
        have hvr : inRange as.length v := hrange hne
        have hval : v = (bitsToZ as) ^ (bitsToNat es) := by
          rw [hv, one_pow, one_mul, List.reverse_reverse]
        constructor
        · rw [bitsToZ_intToBits _ _ hn hvr, hval]
        · exact intToBits_length _ _

/-- Modelled from the spec: the little-endian bit view of the gadget
(§4.2 bit/byte views; internal order is little-endian, §3). -/
def to_bits_le (ws : List Wire) : List Wire := ws

/-- Big-endian bit view: the exact reverse of the little-endian view. -/
def to_bits_be (ws : List Wire) : List Wire := ws.reverse

/-- Rebuild a gadget from its little-endian bit view. -/
def from_bits_le (bs : List Wire) : List Wire := bs

/-- Rebuild a gadget from its big-endian bit view. -/
def from_bits_be (bs : List Wire) : List Wire := bs.reverse

/-- Group the wires into bytes of eight, least-significant byte first. -/
def chunk8 (ws : List Wire) : List (List Wire) :=
  if h : ws = [] then [] else ws.take 8 :: chunk8 (ws.drop 8)
termination_by ws.length
decreasing_by
  simp only [List.length_drop]
  have : 0 < ws.length := List.length_pos.mpr h
  omega

theorem chunk8_join_aux :
    ∀ (k : Nat) (ws : List Wire), ws.length ≤ k → (chunk8 ws).flatten = ws := by
  intro k
  induction k with
  | zero =>
    intro ws h
    have hnil : ws = [] := by
      cases ws with
      | nil => rfl
      | cons w ws => simp at h
    subst hnil
    rw [chunk8]
    simp
  | succ k ih =>
    intro ws h
    rw [chunk8]
    split
    · rename_i h0
      subst h0
      simp
    · rename_i h0
      have hlen : (ws.drop 8).length ≤ k := by
        simp only [List.length_drop]
        have : 0 < ws.length := List.length_pos.mpr h0
        omega
      simp [ih (ws.drop 8) hlen]

theorem chunk8_join (ws : List Wire) : (chunk8 ws).flatten = ws :=
  chunk8_join_aux ws.length ws le_rfl

/-- Little-endian byte view: chunks of eight wires, in order. -/
def to_bytes_le (ws : List Wire) : List (List Wire) := chunk8 ws

/-- Big-endian byte view: the exact reverse of the little-endian byte
list (each byte keeps its own wire order), matching `to_be_bytes`. -/
def to_bytes_be (ws : List Wire) : List (List Wire) := (chunk8 ws).reverse

/-- Rebuild a gadget from its little-endian byte view. -/
def from_bytes_le (bys : List (List Wire)) : List Wire := bys.flatten

/-- Rebuild a gadget from its big-endian byte view. -/
def from_bytes_be (bys : List (List Wire)) : List Wire := bys.reverse.flatten

/-- Allocate an `n`-bit gadget from a native value: every wire carries
the declared mode (Constant allocation yields all-Constant wires,
witness allocation yields Public or Private wires; §4.2 allocate). -/
def mkWires (m : Mode) (n : Nat) (x : Int) : List Wire :=
  (intToBits n x).map (fun b => ⟨m, b⟩)

theorem wireVals_mkWires (m : Mode) (n : Nat) (x : Int) :
    wireVals (mkWires m n x) = intToBits n x := by
  simp [wireVals, mkWires, List.map_map, Function.comp_def]

theorem mkWires_length (m : Mode) (n : Nat) (x : Int) :
    (mkWires m n x).length = n := by
  simp [mkWires, intToBits_length]

theorem allConstant_mkWires (n : Nat) (x : Int) :
    allConstant (mkWires Mode.Constant n x) = true := by
  unfold allConstant mkWires
  rw [List.all_eq_true]
  intro w hw
  rw [List.mem_map] at hw
  obtain ⟨c, hc, rfl⟩ := hw
  simp

theorem wireVals_map_mk (m : Mode) (bs : List Bool) :
    wireVals (bs.map (fun b => ⟨m, b⟩)) = bs := by
  simp [wireVals, List.map_map, Function.comp_def]

/-- Native checked addition: defined exactly when the sum is
representable (the all-Constant fast path of `add`). -/
def checkedAddInt (n : Nat) (x y : Int) : Option Int :=
  if inRange n (x + y) then some (x + y) else none

/-- Native checked subtraction: `add(a, negate(b))` on natives, so it
halts when `b` is the minimum value or the difference overflows. -/
def checkedSubInt (n : Nat) (x y : Int) : Option Int :=
  if y = -((2 : Int) ^ (n - 1)) then none
  else if inRange n (x - y) then some (x - y) else none

/-- Per-wire-width constraint cost of a ripple addition when any
operand is non-Constant; the spec fixes only that it is a fixed
multiple of N (§4.6), zero when every operand is Constant. -/
def addConstraintCost (n : Nat) : Nat := 3 * n

/-- Constraint cost of the constrained multiply path. -/
def mulConstraintCost (n : Nat) : Nat := 6 * n

/-- The dispatcher for `add` over wires (§4.2, §4.5): the all-Constant
fast path computes natively and emits zero constraints; otherwise the
constrained (witness) path runs the ripple adder over the wire values
and tags the result with the join of the operand modes. -/
def gadgetAdd (as bs : List Wire) : Option (List Wire × Nat) :=
  if allConstant as && allConstant bs then
    match checkedAddInt as.length (bitsToZ (wireVals as)) (bitsToZ (wireVals bs)) with
    | none => none
    | some r => some ((intToBits as.length r).map (fun b => ⟨Mode.Constant, b⟩), 0)
  else
    match addSignedBits (wireVals as) (wireVals bs) with
    | none => none
    | some s =>
      some (s.map (fun b => ⟨joinModes (as ++ bs), b⟩), addConstraintCost as.length)

/-- The dispatcher for `sub` over wires: all-Constant fast path or the
constrained `add(a, negate(b))` path. -/
def gadgetSub (as bs : List Wire) : Option (List Wire × Nat) :=
  if allConstant as && allConstant bs then
    match checkedSubInt as.length (bitsToZ (wireVals as)) (bitsToZ (wireVals bs)) with
    | none => none
    | some r => some ((intToBits as.length r).map (fun b => ⟨Mode.Constant, b⟩), 0)
  else
    match subSignedBits (wireVals as) (wireVals bs) with
    | none => none
    | some s =>
      some (s.map (fun b => ⟨joinModes (as ++ bs), b⟩), addConstraintCost as.length)

/-- The dispatcher for `mul` over wires: all-Constant fast path or the
constrained double-width multiply path. -/
def gadgetMul (as bs : List Wire) : Option (List Wire × Nat) :=
  if allConstant as && allConstant bs then
    match checkedMulInt as.length (bitsToZ (wireVals as)) (bitsToZ (wireVals bs)) with
    | none => none
    | some r => some ((intToBits as.length r).map (fun b => ⟨Mode.Constant, b⟩), 0)
  else
    match mulSignedBits (wireVals as) (wireVals bs) with
    | none => none
    | some s =>
      some (s.map (fun b => ⟨joinModes (as ++ bs), b⟩), mulConstraintCost as.length)

/-- The native value computed by a dispatcher result (`none` = halt). -/
def resultValue (o : Option (List Wire × Nat)) : Option Int :=
  o.map (fun p => bitsToZ (wireVals p.1))


theorem gadgetAdd_value (n : Nat) (hn : 1 ≤ n) (a b : Int)
    (ha : inRange n a) (hb : inRange n b) (m1 m2 : Mode) :
    resultValue (gadgetAdd (mkWires m1 n a) (mkWires m2 n b)) =
      checkedAddInt n a b := by
  unfold gadgetAdd
  simp only [mkWires_length, wireVals_mkWires,
    bitsToZ_intToBits n a hn ha, bitsToZ_intToBits n b hn hb]
  by_cases hc : (allConstant (mkWires m1 n a) && allConstant (mkWires m2 n b)) = true
  · rw [if_pos hc]
    cases hadd : checkedAddInt n a b with
    | none => simp [resultValue]
    | some r =>
      have hr : r = a + b ∧ inRange n (a + b) := by
        unfold checkedAddInt at hadd
        split at hadd
        · cases hadd; exact ⟨rfl, by assumption⟩
        · simp at hadd
      simp only [resultValue, Option.map_some']
      rw [wireVals_map_mk, bitsToZ_intToBits n r hn (hr.1 ▸ hr.2)]
  · rw [if_neg hc]
    have spec := addSignedBits_spec (intToBits n a) (intToBits n b)
      (by rw [intToBits_length]; omega) (by rw [intToBits_length, intToBits_length])
    simp only [intToBits_length] at spec
    rw [bitsToZ_intToBits n a hn ha, bitsToZ_intToBits n b hn hb] at spec
    cases hadd : addSignedBits (intToBits n a) (intToBits n b) with
    | none =>
      have hni := spec.1.mp hadd
      simp [resultValue, checkedAddInt, hni]
    | some s =>
      obtain ⟨hv, hl⟩ := spec.2 s hadd
      have hin : inRange n (a + b) := by
        by_contra hni
        rw [spec.1.mpr hni] at hadd
        simp at hadd
      simp only [resultValue, Option.map_some', checkedAddInt, if_pos hin]
      rw [wireVals_map_mk, hv]

theorem gadgetSub_value (n : Nat) (hn : 2 ≤ n) (a b : Int)
    (ha : inRange n a) (hb : inRange n b) (m1 m2 : Mode) :
    resultValue (gadgetSub (mkWires m1 n a) (mkWires m2 n b)) =
      checkedSubInt n a b := by
  have hn1 : 1 ≤ n := by omega
  unfold gadgetSub
  simp only [mkWires_length, wireVals_mkWires,
    bitsToZ_intToBits n a hn1 ha, bitsToZ_intToBits n b hn1 hb]
  by_cases hc : (allConstant (mkWires m1 n a) && allConstant (mkWires m2 n b)) = true
  · rw [if_pos hc]
    cases hsub : checkedSubInt n a b with
    | none => simp [resultValue]
    | some r =>
      have hr : r = a - b ∧ inRange n (a - b) := by
        unfold checkedSubInt at hsub
        split at hsub
        · simp at hsub
        · split at hsub
          · cases hsub; exact ⟨rfl, by assumption⟩
          · simp at hsub
      simp only [resultValue, Option.map_some']
      rw [wireVals_map_mk, bitsToZ_intToBits n r hn1 (hr.1 ▸ hr.2)]
  · rw [if_neg hc]
    have spec := subSignedBits_spec (intToBits n a) (intToBits n b)
      (by rw [intToBits_length]; omega) (by rw [intToBits_length, intToBits_length])
    simp only [intToBits_length] at spec
    rw [bitsToZ_intToBits n a hn1 ha, bitsToZ_intToBits n b hn1 hb] at spec
    cases hsub : subSignedBits (intToBits n a) (intToBits n b) with
    | none =>
      have hni := spec.1.mp hsub
      rcases hni with hmin | hni
      · simp [resultValue, checkedSubInt, hmin]
      · have hcs : checkedSubInt n a b = none := by
          simp [checkedSubInt, hni]
        rw [hcs]
        simp [resultValue]
    | some s =>
      obtain ⟨hv, hl⟩ := spec.2 s hsub
      have hnd : ¬ (b = -((2 : Int) ^ (n - 1)) ∨ ¬ inRange n (a - b)) := by
        intro hd
        rw [spec.1.mpr hd] at hsub
        simp at hsub
      push_neg at hnd
      unfold checkedSubInt
      rw [if_neg hnd.1, if_pos hnd.2]
      simp only [resultValue, Option.map_some']
      rw [wireVals_map_mk, hv]

theorem gadgetMul_value (n : Nat) (hn : 1 ≤ n) (a b : Int)
    (ha : inRange n a) (hb : inRange n b) (m1 m2 : Mode) :
    resultValue (gadgetMul (mkWires m1 n a) (mkWires m2 n b)) =
      checkedMulInt n a b := by
  unfold gadgetMul
  simp only [mkWires_length, wireVals_mkWires,
    bitsToZ_intToBits n a hn ha, bitsToZ_intToBits n b hn hb]
  by_cases hc : (allConstant (mkWires m1 n a) && allConstant (mkWires m2 n b)) = true
  · rw [if_pos hc]
    cases hmul : checkedMulInt n a b with
    | none => simp [resultValue]
    | some r =>
      obtain ⟨hr, hrin⟩ := checkedMulInt_some n a b r hmul
      simp only [resultValue, Option.map_some']
      rw [wireVals_map_mk, bitsToZ_intToBits n r hn (hr ▸ hrin)]
  · rw [if_neg hc]
    have spec := mulSignedBits_spec (intToBits n a) (intToBits n b)
      (by rw [intToBits_length]; omega)
    simp only [intToBits_length] at spec
    rw [bitsToZ_intToBits n a hn ha, bitsToZ_intToBits n b hn hb] at spec
    cases hmul : mulSignedBits (intToBits n a) (intToBits n b) with
    | none =>
      have hni := spec.1.mp hmul
      simp [resultValue, checkedMulInt, hni]
    | some s =>
      obtain ⟨hv, hl⟩ := spec.2 s hmul
      have hin : inRange n (a * b) := by
        by_contra hni
        rw [spec.1.mpr hni] at hmul
        simp at hmul
      simp only [resultValue, Option.map_some', checkedMulInt, if_pos hin]
      rw [wireVals_map_mk, hv]

theorem gadgetAdd_constant_cost (n : Nat) (a b : Int) :
    ∀ o, gadgetAdd (mkWires Mode.Constant n a) (mkWires Mode.Constant n b) = some o →
      o.2 = 0 := by
  intro o ho
  unfold gadgetAdd at ho
  rw [if_pos (by simp [allConstant_mkWires])] at ho
  split at ho
  · simp at ho
  · cases ho
    rfl

theorem gadgetSub_constant_cost (n : Nat) (a b : Int) :
    ∀ o, gadgetSub (mkWires Mode.Constant n a) (mkWires Mode.Constant n b) = some o →
      o.2 = 0 := by
  intro o ho
  unfold gadgetSub at ho
  rw [if_pos (by simp [allConstant_mkWires])] at ho
  split at ho
  · simp at ho
  · cases ho
    rfl

theorem gadgetMul_constant_cost (n : Nat) (a b : Int) :
    ∀ o, gadgetMul (mkWires Mode.Constant n a) (mkWires Mode.Constant n b) = some o →
      o.2 = 0 := by
  intro o ho
  unfold gadgetMul at ho
  rw [if_pos (by simp [allConstant_mkWires])] at ho
  split at ho
  · simp at ho
  · cases ho
    rfl

/-- Halt diagnostics surfaced by the dispatcher (§7): the class of halt
message raised by `P::halt` in `neg.rs` and by the gadget layer. -/
inductive Halt
  | invalidInstruction
  | integerOverflow
  | notALiteral (name : String)
  | unboundRegister
deriving DecidableEq, Repr

/-- The `Literal` tagged union of the circuits layer: each variant owns
a value of its kind plus a mode (§3). Values are modelled natively
(field/group as the additive group of integers, since only the additive
inverse is exercised here). -/
inductive Literal
  | field (m : Mode) (a : Int)
  | group (m : Mode) (a : Int)
  | boolean (m : Mode) (b : Bool)
  | i8 (m : Mode) (a : Int)
  | i16 (m : Mode) (a : Int)
  | i32 (m : Mode) (a : Int)
  | i64 (m : Mode) (a : Int)
  | i128 (m : Mode) (a : Int)
  | u8 (m : Mode) (a : Int)
  | u16 (m : Mode) (a : Int)
  | u32 (m : Mode) (a : Int)
  | u64 (m : Mode) (a : Int)
  | u128 (m : Mode) (a : Int)
  | scalar (m : Mode) (a : Int)
  | string (m : Mode) (s : String)
  | address (m : Mode) (s : String)
deriving DecidableEq, Repr

/-- A register value: a literal or a composite (struct-like) value. -/
inductive Value
  | literal (l : Literal)
  | composite (name : String) (members : List Literal)
deriving DecidableEq, Repr

/-- Signed integer negation at width `w` through the bit gadget:
complement-and-add-one; overflow (the minimum value) halts with the
overflow diagnostic observed in the `neg.rs` tests. -/
def intNegLit (w : Nat) (a : Int) : Except Halt Int :=
  match negSignedBits (intToBits w a) with
  | none => .error Halt.integerOverflow
  | some r => .ok (bitsToZ r)

/-- The match of `Neg::evaluate` over the loaded literal
(`neg.rs` lines 85–94): Field and Group take the algebraic additive
inverse; I8–I128 take two's-complement negation; every other variant
halts with the invalid-instruction diagnostic. -/
def negLiteral : Literal → Except Halt Literal
  | .field m a => .ok (.field m (-a))
  | .group m a => .ok (.group m (-a))
  | .i8 m a => (intNegLit 8 a).map (.i8 m)
  | .i16 m a => (intNegLit 16 a).map (.i16 m)
  | .i32 m a => (intNegLit 32 a).map (.i32 m)
  | .i64 m a => (intNegLit 64 a).map (.i64 m)
  | .i128 m a => (intNegLit 128 a).map (.i128 m)
  | _ => .error Halt.invalidInstruction

/-- An operand is a register reference or an immediate value (§3). -/
inductive Operand
  | register (r : Nat)
  | immediate (v : Value)
deriving DecidableEq, Repr

/-- The register store: bindings from register index to value (§4.4). -/
def loadRegister (rs : List (Nat × Value)) (r : Nat) : Option Value :=
  (rs.find? (fun p => p.1 == r)).map Prod.snd

/-- `load` resolves an operand: an immediate is returned as-is, a
register reference is looked up (halting if unbound is handled by the
caller returning an error). -/
def loadOperand (rs : List (Nat × Value)) (op : Operand) : Option Value :=
  match op with
  | .register r => loadRegister rs r
  | .immediate v => some v

/-- `Neg::evaluate` (`neg.rs` lines 77–97): load the first operand
(halting on a composite where a literal is required), negate it, and
assign the outcome to the destination register. -/
def negEvaluate (rs : List (Nat × Value)) (first : Operand) (dst : Nat) :
    Except Halt (List (Nat × Value)) :=
  match loadOperand rs first with
  | none => .error Halt.unboundRegister
  | some (.composite name _) => .error (Halt.notALiteral name)
  | some (.literal lit) =>
    match negLiteral lit with
    | .error e => .error e
    | .ok r => .ok ((dst, .literal r) :: rs)

/-- `CircuitCount`: plain resource-count data (§3). -/
structure CircuitCount where
  numConstants : Nat
  numPublic : Nat
  numPrivate : Nat
  numConstraints : Nat
deriving DecidableEq, Repr

/-- The `LiteralType` tags used by `count`/`output_type`: a literal
kind together with the mode of the (single) operand. -/
inductive LiteralType
  | field (m : Mode)
  | group (m : Mode)
  | boolean (m : Mode)
  | i8 (m : Mode)
  | i16 (m : Mode)
  | i32 (m : Mode)
  | i64 (m : Mode)
  | i128 (m : Mode)
  | u8 (m : Mode)
  | u16 (m : Mode)
  | u32 (m : Mode)
  | u64 (m : Mode)
  | u128 (m : Mode)
  | scalar (m : Mode)
  | string (m : Mode)
  | address (m : Mode)
deriving DecidableEq, Repr

/-- Modelled from the spec: Cost Model Registry entry for field/group
negation (§4.6): the additive inverse is linear, so no constraints and
no witness variables in any mode. -/
def fieldNegCount (_m : Mode) : CircuitCount := ⟨0, 0, 0, 0⟩

/-- Modelled from the spec: Cost Model Registry entry for `w`-bit
integer negation (§4.6): zero constraints when the operand is Constant,
otherwise a fixed multiple of the width, with witness wires private. -/
def intNegCount (w : Nat) (m : Mode) : CircuitCount :=
  if m = Mode.Constant then ⟨w, 0, 0, 0⟩ else ⟨0, 0, w, addConstraintCost w⟩

/-- `Count for Neg` (`neg.rs` lines 103–119): the dispatcher consults
the registry for Field, Group, I8 and U8 operand types only; every
other literal type falls to the catch-all halt arm. -/
def negCount : LiteralType → Except Halt CircuitCount
  | .field m => .ok (fieldNegCount m)
  | .group m => .ok (fieldNegCount m)
  | .i8 m => .ok (intNegCount 8 m)
  | .u8 m => .ok (intNegCount 8 m)
  | _ => .error Halt.invalidInstruction

/-- Modelled from the spec: the default output-mode rule is the join of
all input modes (§4.5); for a unary opcode that is the input mode. -/
def negUnaryOutputMode (m : Mode) : Mode := m

/-- `OutputType for Neg` (`neg.rs` lines 126–150): Field, Group, I8 and
U8 arms only; every other literal type falls to the catch-all halt. -/
def negOutputType : LiteralType → Except Halt LiteralType
  | .field m => .ok (.field (negUnaryOutputMode m))
  | .group m => .ok (.group (negUnaryOutputMode m))
  | .i8 m => .ok (.i8 (negUnaryOutputMode m))
  | .u8 m => .ok (.u8 (negUnaryOutputMode m))
  | _ => .error Halt.invalidInstruction

/-- `Payload` of a record (opaque byte payload). -/
structure Payload where
  bytes : List Nat
deriving DecidableEq, Repr

/-- `VirtualRecord` (`objects.rs` lines 22–32). -/
structure VirtualRecord where
  owner : Option String
  value : Option Nat
  payload : Option Payload
  birth_program_id : Option (List Nat)
  death_program_id : Option (List Nat)
  commitment : Option (List Nat)
  commitment_randomness : Option (List Nat)
  serial_number_nonce : Option (List Nat)
  serial_number_nonce_randomness : Option (List Nat)

/-- `VirtualRecord::is_dummy` (`objects.rs` lines 34–50): the value is
matched against `Some(0) | None`, but the result of that match is
discarded (the non-dummy arm's `false` is never returned), the payload
check is commented out, and the function ends by returning `true`. -/
def VirtualRecord.is_dummy (r : VirtualRecord) : Bool :=
  let _value_check : Bool :=
    match r.value with
    | some 0 => true
    | none => true
    | some _ => false
  true

/-- The boolean constraints emitted by the constrained `add` path: one
constraint per result wire, pinning result bit `i` to the ripple-adder
sum bit `i` of the operand wires. -/
def addConstraintList (as bs : List Bool) : List (Nat × Bool) :=
  ((rippleAdd as bs false).1).enum

/-- An assignment (of values to result wires, by index) satisfies a
constraint list when every pinned bit matches. -/
def satisfiesConstraints (asg : Nat → Bool) (cs : List (Nat × Bool)) : Prop :=
  ∀ p ∈ cs, asg p.1 = p.2

/-- The canonical assignment: each result wire carries its sum bit. -/
def resultBitAssignment (as bs : List Bool) : Nat → Bool :=
  fun i => ((rippleAdd as bs false).1).getD i false

/-- Flip the result wire of bit 0 in an assignment (the tamper step of
the `test_int8_add` scenario). -/
def flipBit0 (asg : Nat → Bool) : Nat → Bool :=
  fun i => if i = 0 then ! asg 0 else asg i

theorem enumFrom_getD (s : List Bool) : ∀ (k : Nat) (p : Nat × Bool),
    p ∈ s.enumFrom k → k ≤ p.1 ∧ s.getD (p.1 - k) false = p.2 := by
  induction s with
  | nil =>
    intro k p hp
    simp [List.enumFrom] at hp
  | cons b t ih =>
    intro k p hp
    rw [List.enumFrom] at hp
    rcases List.mem_cons.mp hp with h | h
    · subst h
      simp
    · obtain ⟨hk, hg⟩ := ih (k + 1) p h
      refine ⟨by omega, ?_⟩
      rw [show p.1 - k = (p.1 - (k + 1)) + 1 by omega]
      simpa using hg

theorem satisfies_addConstraints (as bs : List Bool) :
    satisfiesConstraints (resultBitAssignment as bs) (addConstraintList as bs) := by
  intro p hp
  unfold addConstraintList List.enum at hp
  have := enumFrom_getD (rippleAdd as bs false).1 0 p hp
  unfold resultBitAssignment
  simpa using this.2

theorem flipBit0_unsatisfies (as bs : List Bool)
    (hne : (rippleAdd as bs false).1 ≠ []) :
    ¬ satisfiesConstraints (flipBit0 (resultBitAssignment as bs))
        (addConstraintList as bs) := by
  intro hsat
  obtain ⟨b, t, hbt⟩ := List.exists_cons_of_ne_nil hne
  have hmem : ((0 : Nat), b) ∈ addConstraintList as bs := by
    unfold addConstraintList List.enum
    rw [hbt, List.enumFrom]
    exact List.mem_cons_self _ _
  have := hsat _ hmem
  unfold flipBit0 resultBitAssignment at this
  rw [hbt] at this
  simp at this

deriving instance DecidableEq for Except

/-- C1: the claim requires `count` to return a CircuitCount for every
literal type `evaluate` accepts (Field, Group, I8–I128) and to agree
with the halting behaviour of `evaluate` on rejected types. The code
diverges: `count` falls to its halt arm on I16 (an operand type that
`evaluate` negates successfully), and returns a registry count for U8
(an operand type on which `evaluate` halts). This theorem evaluates the
code at those inputs. -/
theorem claim_C1_count_evaluate_divergence :
    negCount (LiteralType.i16 Mode.Constant) = .error Halt.invalidInstruction ∧
    negLiteral (Literal.i16 Mode.Constant 1) = .ok (Literal.i16 Mode.Constant (-1)) ∧
    negCount (LiteralType.u8 Mode.Constant) = .ok (intNegCount 8 Mode.Constant) ∧
    negLiteral (Literal.u8 Mode.Constant 1) = .error Halt.invalidInstruction := by
  refine ⟨rfl, ?_, rfl, rfl⟩
  decide

/-- C2: for every pair of representable N-bit signed integers and each
of add, subtract and multiply, the all-Constant (native) path and the
constrained (witness) path produce identical results and halt under
identical conditions — stated as: the dispatcher result is independent
of the operand mode combination — and the all-Constant path emits zero
constraints. -/
theorem claim_C2_constant_constrained_equivalence (n : Nat) (hn : 2 ≤ n)
    (a b : Int) (ha : inRange n a) (hb : inRange n b) (m1 m2 : Mode) :
    (resultValue (gadgetAdd (mkWires m1 n a) (mkWires m2 n b)) =
      resultValue (gadgetAdd (mkWires Mode.Constant n a) (mkWires Mode.Constant n b))) ∧
    (resultValue (gadgetSub (mkWires m1 n a) (mkWires m2 n b)) =
      resultValue (gadgetSub (mkWires Mode.Constant n a) (mkWires Mode.Constant n b))) ∧
    (resultValue (gadgetMul (mkWires m1 n a) (mkWires m2 n b)) =
      resultValue (gadgetMul (mkWires Mode.Constant n a) (mkWires Mode.Constant n b))) ∧
    (∀ o, gadgetAdd (mkWires Mode.Constant n a) (mkWires Mode.Constant n b) = some o →
      o.2 = 0) ∧
    (∀ o, gadgetSub (mkWires Mode.Constant n a) (mkWires Mode.Constant n b) = some o →
      o.2 = 0) ∧
    (∀ o, gadgetMul (mkWires Mode.Constant n a) (mkWires Mode.Constant n b) = some o →
      o.2 = 0) := by
  refine ⟨?_, ?_, ?_, gadgetAdd_constant_cost n a b, gadgetSub_constant_cost n a b,
    gadgetMul_constant_cost n a b⟩
  · rw [gadgetAdd_value n (by omega) a b ha hb m1 m2,
      gadgetAdd_value n (by omega) a b ha hb Mode.Constant Mode.Constant]
  · rw [gadgetSub_value n hn a b ha hb m1 m2,
      gadgetSub_value n hn a b ha hb Mode.Constant Mode.Constant]
  · rw [gadgetMul_value n (by omega) a b ha hb m1 m2,
      gadgetMul_value n (by omega) a b ha hb Mode.Constant Mode.Constant]

/-- Witness for C2 at width 8, operands 3 and 5, Private/Public modes. -/
theorem claim_C2_witness :
    ((2 ≤ 8) ∧ inRange 8 3 ∧ inRange 8 5) ∧
    resultValue (gadgetAdd (mkWires Mode.Private 8 3) (mkWires Mode.Public 8 5)) =
      resultValue (gadgetAdd (mkWires Mode.Constant 8 3) (mkWires Mode.Constant 8 5)) := by
  have h := claim_C2_constant_constrained_equivalence 8 (by decide) 3 5
    (by decide) (by decide) Mode.Private Mode.Public
  exact ⟨⟨by decide, by decide, by decide⟩, h.1⟩

/-- C3: signed negate halts exactly at the minimum value and otherwise
returns the exact arithmetic negation; through the Neg instruction,
`neg r0 into r1` with r0 = 1i8 yields r1 = −1i8, and with r0 = −128i8
halts with the overflow diagnostic. -/
theorem claim_C3_neg_min_boundary (as : List Bool) (hn : 2 ≤ as.length) :
    (negSignedBits as = none ↔ bitsToZ as = -((2 : Int) ^ (as.length - 1))) ∧
    (∀ r, negSignedBits as = some r → bitsToZ r = -(bitsToZ as)) ∧
    negEvaluate [(0, Value.literal (Literal.i8 Mode.Constant 1))] (Operand.register 0) 1 =
      .ok [(1, Value.literal (Literal.i8 Mode.Constant (-1))),
        (0, Value.literal (Literal.i8 Mode.Constant 1))] ∧
    negEvaluate [(0, Value.literal (Literal.i8 Mode.Constant (-128)))] (Operand.register 0) 1 =
      .error Halt.integerOverflow := by
  have spec := negSignedBits_spec as hn
  refine ⟨spec.1, fun r hr => (spec.2 r hr).1, by decide, by decide⟩

/-- Witness for C3 at the 8-bit minimum value. -/
theorem claim_C3_witness :
    2 ≤ (intToBits 8 (-128)).length ∧
    negSignedBits (intToBits 8 (-128)) = none := by
  have h := claim_C3_neg_min_boundary (intToBits 8 (-128)) (by decide)
  exact ⟨by decide, h.1.mpr (by decide)⟩

/-- C4: `add` halts iff the mathematical sum is unrepresentable,
otherwise returns exactly the sum; the emitted constraint system is
satisfied by the result bits, and flipping the bit-0 result constraint
makes it unsatisfiable. -/
theorem claim_C4_add_exact_and_constraints (as bs : List Bool)
    (hn : 1 ≤ as.length) (h : as.length = bs.length) :
    (addSignedBits as bs = none ↔
      ¬ inRange as.length (bitsToZ as + bitsToZ bs)) ∧
    (∀ s, addSignedBits as bs = some s → bitsToZ s = bitsToZ as + bitsToZ bs) ∧
    satisfiesConstraints (resultBitAssignment as bs) (addConstraintList as bs) ∧
    ¬ satisfiesConstraints (flipBit0 (resultBitAssignment as bs))
        (addConstraintList as bs) := by
  have spec := addSignedBits_spec as bs hn h
  refine ⟨spec.1, fun s hs => (spec.2 s hs).1, satisfies_addConstraints as bs, ?_⟩
  apply flipBit0_unsatisfies
  intro hnil
  have hl := rippleAdd_length as bs false h
  rw [hnil] at hl
  simp at hl
  omega

/-- Witness for C4 at width 8, operands 3 and 5. -/
theorem claim_C4_witness :
    (1 ≤ (intToBits 8 3).length ∧ (intToBits 8 3).length = (intToBits 8 5).length) ∧
    satisfiesConstraints (resultBitAssignment (intToBits 8 3) (intToBits 8 5))
      (addConstraintList (intToBits 8 3) (intToBits 8 5)) ∧
    ¬ satisfiesConstraints
        (flipBit0 (resultBitAssignment (intToBits 8 3) (intToBits 8 5)))
        (addConstraintList (intToBits 8 3) (intToBits 8 5)) := by
  have h := claim_C4_add_exact_and_constraints (intToBits 8 3) (intToBits 8 5)
    (by decide) (by decide)
  exact ⟨⟨by decide, by decide⟩, h.2.2.1, h.2.2.2⟩

/-- C5: `divide(a, 0)` halts for every a, `divide(MIN, −1)` halts, and
every other pair returns the truncated-toward-zero quotient equal to
native integer division. -/
theorem claim_C5_divide_edge_cases (as bs : List Bool) (hn : 1 ≤ as.length) :
    (divSignedBits as bs = none ↔
      (bitsToZ bs = 0 ∨
        (bitsToZ as = -((2 : Int) ^ (as.length - 1)) ∧ bitsToZ bs = -1))) ∧
    (∀ r, divSignedBits as bs = some r →
      bitsToZ r = (bitsToZ as).tdiv (bitsToZ bs)) := by
  have spec := divSignedBits_spec as bs hn
  exact ⟨spec.1, fun r hr => (spec.2 r hr).1⟩

/-- Witness for C5: the minimum 8-bit value divided by −1 halts. -/
theorem claim_C5_witness :
    1 ≤ (intToBits 8 (-128)).length ∧
    divSignedBits (intToBits 8 (-128)) (intToBits 8 (-1)) = none := by
  have h := claim_C5_divide_edge_cases (intToBits 8 (-128)) (intToBits 8 (-1))
    (by decide)
  exact ⟨by decide, h.1.mpr (Or.inr ⟨by decide, by decide⟩)⟩

/-- C6: bit views round-trip (`from_bits_be ∘ to_bits_be` and the
little-endian pair are the identity), the big-endian bit view is the
exact reverse of the little-endian one, and the same round-trip and
reversal identities hold for the byte views. -/
theorem claim_C6_bit_byte_roundtrips (ws : List Wire) :
    from_bits_be (to_bits_be ws) = ws ∧
    from_bits_le (to_bits_le ws) = ws ∧
    (to_bits_be ws).reverse = to_bits_le ws ∧
    from_bytes_be (to_bytes_be ws) = ws ∧
    from_bytes_le (to_bytes_le ws) = ws ∧
    (to_bytes_be ws).reverse = to_bytes_le ws := by
  refine ⟨?_, rfl, ?_, ?_, ?_, ?_⟩
  · simp [from_bits_be, to_bits_be]
  · simp [to_bits_be, to_bits_le]
  · simp [from_bytes_be, to_bytes_be, chunk8_join]
  · simp [from_bytes_le, to_bytes_le, chunk8_join]
  · simp [to_bytes_be, to_bytes_le]

/-- C7: `power(a, e)` halts when the exponent sign bit is set (e < 0);
a cleared sign bit means the exponent equals its unsigned reading; and
every successful run returns exactly `a ^ e` (repeated multiplication),
intermediate multiplies being range-checked by the multiply rule. -/
theorem claim_C7_power_square_and_multiply (as es : List Bool)
    (hn : 1 ≤ as.length) (h : as.length = es.length) :
    (signBit es = true → powSignedBits as es = none) ∧
    (signBit es = false → bitsToZ es = (bitsToNat es : Int)) ∧
    (∀ r, powSignedBits as es = some r →
      bitsToZ r = (bitsToZ as) ^ (bitsToNat es)) := by
  have spec := powSignedBits_spec as es hn h
  exact ⟨spec.1, spec.2.1, fun r hr => (spec.2.2 r hr).1⟩

/-- Witness for C7: 3 to the power 2 at width 8 yields 9. -/
theorem claim_C7_witness :
    (1 ≤ (intToBits 8 3).length ∧ (intToBits 8 3).length = (intToBits 8 2).length) ∧
    bitsToZ (intToBits 8 9) = (bitsToZ (intToBits 8 3)) ^ (bitsToNat (intToBits 8 2)) := by
  have h := claim_C7_power_square_and_multiply (intToBits 8 3) (intToBits 8 2)
    (by decide) (by decide)
  exact ⟨⟨by decide, by decide⟩, h.2.2 (intToBits 8 9) (by decide)⟩

/-- C8: evaluating Neg on any unsigned integer, scalar, boolean,
string or address halts with the invalid-instruction diagnostic, and
loading a composite value where a literal is required halts; no such
evaluation produces a result. -/
theorem claim_C8_unsupported_operands_halt :
    (∀ m a, negLiteral (Literal.u8 m a) = .error Halt.invalidInstruction) ∧
    (∀ m a, negLiteral (Literal.u16 m a) = .error Halt.invalidInstruction) ∧
    (∀ m a, negLiteral (Literal.u32 m a) = .error Halt.invalidInstruction) ∧
    (∀ m a, negLiteral (Literal.u64 m a) = .error Halt.invalidInstruction) ∧
    (∀ m a, negLiteral (Literal.u128 m a) = .error Halt.invalidInstruction) ∧
    (∀ m a, negLiteral (Literal.scalar m a) = .error Halt.invalidInstruction) ∧
    (∀ m b, negLiteral (Literal.boolean m b) = .error Halt.invalidInstruction) ∧
    (∀ m s, negLiteral (Literal.string m s) = .error Halt.invalidInstruction) ∧
    (∀ m s, negLiteral (Literal.address m s) = .error Halt.invalidInstruction) ∧
    (∀ rs name members dst,
      negEvaluate rs (Operand.immediate (Value.composite name members)) dst =
        .error (Halt.notALiteral name)) :=
  ⟨fun _ _ => rfl, fun _ _ => rfl, fun _ _ => rfl, fun _ _ => rfl, fun _ _ => rfl,
    fun _ _ => rfl, fun _ _ => rfl, fun _ _ => rfl, fun _ _ => rfl,
    fun _ _ _ _ => rfl⟩

/-- C9: the claim requires `output_mode` to equal the join of the input
modes for every literal type `evaluate` accepts. The default unary rule
does hold on the types `output_type` covers (a Constant field input
yields a Constant result, likewise Group and I8 in every mode), but
`output_type` falls to its halt arm on I16, an operand type that
`evaluate` negates successfully — the same slip as in `count`. -/
theorem claim_C9_output_type_divergence :
    negOutputType (LiteralType.i16 Mode.Constant) = .error Halt.invalidInstruction ∧
    negLiteral (Literal.i16 Mode.Constant 1) = .ok (Literal.i16 Mode.Constant (-1)) ∧
    (∀ m, negOutputType (LiteralType.field m) = .ok (LiteralType.field m)) ∧
    (∀ m, negOutputType (LiteralType.group m) = .ok (LiteralType.group m)) ∧
    (∀ m, negOutputType (LiteralType.i8 m) = .ok (LiteralType.i8 m)) ∧
    negLiteral (Literal.field Mode.Constant 1) = .ok (Literal.field Mode.Constant (-1)) := by
  refine ⟨rfl, ?_, fun _ => rfl, fun _ => rfl, fun _ => rfl, rfl⟩
  decide

/-- C10: `VirtualRecord::is_dummy` returns true for every record,
whatever its value or payload, because the value check discards its
result: in particular a record with a nonzero value is reported dummy. -/
theorem claim_C10_is_dummy_always_true (r : VirtualRecord) :
    r.is_dummy = true := rfl
